import Mathlib

/-!
Verification of the three puzzle pipelines (grouped sums, paired-choice game,
set-intersection scoring) against their natural-language specification.

Text is modelled as `List Char`.  Rust's `str::lines` and `str::split` are
modelled by structurally recursive splitting functions so that every
definition evaluates on concrete inputs.  Panicking Rust code is modelled
with `Option`; `Result`-returning Rust code with `Except`.
-/

/-- Split a character sequence at every occurrence of `sep`, keeping empty
chunks, as Rust's `str::split` does: the empty input yields one empty chunk. -/
def splitChar (sep : Char) : List Char → List (List Char)
  | [] => [[]]
  | c :: cs =>
    if c = sep then [] :: splitChar sep cs
    else
      match splitChar sep cs with
      | p :: ps => (c :: p) :: ps
      | [] => [[c]]

/-- Remove one trailing carriage return, as Rust's `lines` does to every
newline-terminated chunk. -/
def stripCR (l : List Char) : List Char :=
  if l.getLast? = some '\r' then l.dropLast else l

/-- Post-processing of the chunks produced by splitting on a newline, modelling
Rust's `str::lines`: every chunk except the last one was newline-terminated and
has a trailing carriage return removed; a final empty chunk (from a trailing
newline, or from empty input) is dropped. -/
def linesOfParts : List (List Char) → List (List Char)
  | [] => []
  | [last] => if last.isEmpty then [] else [last]
  | p :: rest => stripCR p :: linesOfParts rest

/-- Model of Rust's `str::lines`. -/
def rustLines (s : List Char) : List (List Char) :=
  linesOfParts (splitChar '\n' s)

/-- Join a list of lines with newline separators; the left inverse of
`rustLines` used to build inputs with prescribed lines. -/
def joinNl : List (List Char) → List Char
  | [] => []
  | [l] => l
  | l :: rest => l ++ '\n' :: joinNl rest

namespace Day1

/-- A box storing all meals, snacks, etc. and the position the box is in
within the elves (from `day1.rs`). -/
structure CalorieBox where
  position : Nat
  calories : List Nat
deriving DecidableEq, Repr

/-- Total of all calories within the box: `self.calories.iter().sum()` over
`u32`, so the sum is reduced modulo `2 ^ 32`. -/
def CalorieBox.total (b : CalorieBox) : Nat :=
  (b.calories.foldl (· + ·) 0) % 2 ^ 32

/-- Value of a run of decimal digits. -/
def digitsVal (ds : List Char) : Nat :=
  ds.foldl (fun a c => a * 10 + (c.toNat - '0'.toNat)) 0

/-- Model of `str::parse::<u32>`: an optional leading plus sign followed by at
least one ASCII digit, with the value required to fit in 32 bits. -/
def parse_u32 (line : List Char) : Option Nat :=
  let ds :=
    match line with
    | '+' :: rest => rest
    | _ => line
  if ds.isEmpty then none
  else if ds.all Char.isDigit then
    if digitsVal ds < 2 ^ 32 then some (digitsVal ds) else none
  else none

/-- The line loop of `input_generator` in `day1.rs`, carrying the accumulated
boxes and the calories of the group being accumulated; the `expect` on a
failed parse is modelled by returning `none`. -/
def igLoop : List (List Char) → List CalorieBox → List Nat → Option (List CalorieBox)
  | [], boxes, calories => some (boxes ++ [⟨boxes.length, calories⟩])
  | line :: rest, boxes, calories =>
    if line.isEmpty then igLoop rest (boxes ++ [⟨boxes.length, calories⟩]) []
    else
      match parse_u32 line with
      | some n => igLoop rest boxes (calories ++ [n])
      | none => none

/-- Model of `input_generator` in `day1.rs`. -/
def input_generator (input : List Char) : Option (List CalorieBox) :=
  igLoop (rustLines input) [] []

/-- The reduction step of `Iterator::max_by` with the comparator
`a.total().partial_cmp(&b.total())`: keep the accumulator only when it is
strictly greater, so later ties win. -/
def maxStep (acc x : CalorieBox) : CalorieBox :=
  if x.total < acc.total then acc else x

/-- Model of `get_largest_box` in `day1.rs`; the `expect` on empty input is
modelled by returning `none`. -/
def get_largest_box : List CalorieBox → Option CalorieBox
  | [] => none
  | b :: rest => some (rest.foldl maxStep b)

/-- Model of `get_largest_boxes` in `day1.rs`: a stable sort by descending
total followed by `truncate`. -/
def get_largest_boxes (input : List CalorieBox) (count : Nat) : List CalorieBox :=
  (input.mergeSort fun a b => Nat.ble b.total a.total).take count

/-- Model of `sum_boxes` in `day1.rs`: a `u32` sum of the totals. -/
def sum_boxes (input : List CalorieBox) : Nat :=
  ((input.map CalorieBox.total).foldl (· + ·) 0) % 2 ^ 32

/-- Model of `solve_part1` in `day1.rs`. -/
def solve_part1 (input : List CalorieBox) : Option String :=
  (get_largest_box input).map fun b => toString b.total

/-- Specification-side description of the grouping discipline: an empty line
closes the current group (even if empty) and starts a new one, and the final
accumulated group is always present, so the groups are exactly the chunks of
the line list delimited by empty lines. -/
def splitGroups : List (List Char) → List (List (List Char))
  | [] => [[]]
  | line :: rest =>
    if line.isEmpty then [] :: splitGroups rest
    else
      match splitGroups rest with
      | g :: gs => (line :: g) :: gs
      | [] => [[line]]

/-- Specification-side parsing of one group of lines: every line must be a
valid unsigned integer. -/
def parseBlock : List (List Char) → Option (List Nat)
  | [] => some []
  | line :: rest =>
    match parse_u32 line, parseBlock rest with
    | some n, some ns => some (n :: ns)
    | _, _ => none

/-- Specification-side parsing of all groups. -/
def parseBlocks : List (List (List Char)) → Option (List (List Nat))
  | [] => some []
  | g :: gs =>
    match parseBlock g, parseBlocks gs with
    | some b, some bs => some (b :: bs)
    | _, _ => none

/-- Attach consecutive positions, starting from `pos`, to parsed groups. -/
def mkBoxes : Nat → List (List Nat) → List CalorieBox
  | _, [] => []
  | pos, g :: gs => ⟨pos, g⟩ :: mkBoxes (pos + 1) gs

/-- Merge already-accumulated calories into the first group of a group list. -/
def consHead (cal : List Nat) : List (List Nat) → List (List Nat)
  | [] => [cal]
  | g :: gs => (cal ++ g) :: gs

end Day1

namespace Day2

/-- Either a Win, Tie, or Loss (from `day2.rs`). -/
inductive PlayResult where
  | Win
  | Tie
  | Loss
deriving DecidableEq, Repr

/-- A choice between Rock, Paper, and Scissors (from `day2.rs`). -/
inductive Play where
  | Rock
  | Paper
  | Scissors
deriving DecidableEq, Repr

/-- The discriminant values given by `#[repr(C)]` with `Rock = 1`, used by the
cast `self.1 as u32`. -/
def Play.asU32 : Play → Nat
  | .Rock => 1
  | .Paper => 2
  | .Scissors => 3

/-- Model of `Play::wins_against` in `day2.rs`: the result of a game between
`self` and the other play, from the perspective of `self`.  The source matches
on the pair `(against, self)`. -/
def Play.wins_against (self against : Play) : PlayResult :=
  match against, self with
  | .Rock, .Rock => .Tie
  | .Rock, .Paper => .Win
  | .Rock, .Scissors => .Loss
  | .Paper, .Rock => .Loss
  | .Paper, .Paper => .Tie
  | .Paper, .Scissors => .Win
  | .Scissors, .Rock => .Win
  | .Scissors, .Paper => .Loss
  | .Scissors, .Scissors => .Tie

/-- Model of `Play::from_strategy` in `day2.rs`: "X" asks for a losing play,
"Y" for a tying play, "Z" for a winning play; anything else is an error. -/
def Play.from_strategy (fromPlay : Play) (strategy : List Char) : Except (List Char) Play :=
  if strategy = ['X'] then
    match fromPlay with
    | .Rock => .ok .Scissors
    | .Paper => .ok .Rock
    | .Scissors => .ok .Paper
  else if strategy = ['Y'] then .ok fromPlay
  else if strategy = ['Z'] then
    match fromPlay with
    | .Rock => .ok .Paper
    | .Paper => .ok .Scissors
    | .Scissors => .ok .Rock
  else .error ("Was given an invalid play: ".data ++ strategy)

/-- Model of the `FromStr` instance for `Play` in `day2.rs`. -/
def Play.from_str (s : List Char) : Except (List Char) Play :=
  if s = ['A'] ∨ s = ['X'] then .ok .Rock
  else if s = ['B'] ∨ s = ['Y'] then .ok .Paper
  else if s = ['C'] ∨ s = ['Z'] then .ok .Scissors
  else .error ("Was given an invalid play: ".data ++ s)

/-- Two Plays pit against each other; `fst` and `snd` model the positional
fields `.0` and `.1` of `Game` in `day2.rs`. -/
structure Game where
  fst : Play
  snd : Play
deriving DecidableEq, Repr

/-- Model of `Game::points` in `day2.rs`: the shape value of the right-hand
play plus the outcome bonus from the right-hand perspective. -/
def Game.points (g : Game) : Nat :=
  g.snd.asU32 +
    match g.snd.wins_against g.fst with
    | .Win => 6
    | .Tie => 3
    | .Loss => 0

/-- The closure passed to `filter_map` in `input_generator_part1` of
`day2.rs`: take the first two space-separated tokens of the line, parse both
as `Play`s, and skip the line (`none`) on any failure. -/
def parseLine1 (line : List Char) : Option Game :=
  match splitChar ' ' line with
  | t1 :: t2 :: _ =>
    match Play.from_str t1, Play.from_str t2 with
    | .ok a, .ok b => some ⟨a, b⟩
    | _, _ => none
  | _ => none

/-- Model of `input_generator_part1` in `day2.rs`. -/
def input_generator_part1 (input : List Char) : List Game :=
  (rustLines input).filterMap parseLine1

/-- The closure passed to `filter_map` in `input_generator_part2` of
`day2.rs`: the second token is resolved via `from_strategy` against the first
token's play, and the line is skipped (`none`) on any failure. -/
def parseLine2 (line : List Char) : Option Game :=
  match splitChar ' ' line with
  | t1 :: t2 :: _ =>
    match Play.from_str t1 with
    | .ok a =>
      match Play.from_strategy a t2 with
      | .ok b => some ⟨a, b⟩
      | .error _ => none
    | .error _ => none
  | _ => none

/-- Model of `input_generator_part2` in `day2.rs`. -/
def input_generator_part2 (input : List Char) : List Game :=
  (rustLines input).filterMap parseLine2

end Day2

namespace Day3

/-- The per-line split of `input_generator_part1` in `day3.rs`:
`line[0..len/2]` and `line[len/2..len]`, modelled at character granularity. -/
def bisect (line : List Char) : List Char × List Char :=
  (line.take (line.length / 2), line.drop (line.length / 2))

/-- Model of `input_generator_part1` in `day3.rs`. -/
def input_generator_part1 (input : List Char) : List (List Char × List Char) :=
  (rustLines input).map bisect

end Day3

/-! ### Helper lemmas about line splitting -/

theorem splitChar_ne_nil (sep : Char) (cs : List Char) : splitChar sep cs ≠ [] := by
  cases cs with
  | nil => simp [splitChar]
  | cons c cs =>
    simp only [splitChar]
    split
    · simp
    · split <;> simp

theorem splitChar_not_mem (sep : Char) (l : List Char) (h : sep ∉ l) :
    splitChar sep l = [l] := by
  induction l with
  | nil => rfl
  | cons c cs ih =>
    simp only [List.mem_cons, not_or] at h
    have hcs : ¬(c = sep) := fun hc => h.1 hc.symm
    rw [splitChar, if_neg hcs, ih h.2]

theorem splitChar_append (sep : Char) (l rest : List Char) (h : sep ∉ l) :
    splitChar sep (l ++ sep :: rest) = l :: splitChar sep rest := by
  induction l with
  | nil => simp [splitChar]
  | cons c cs ih =>
    simp only [List.mem_cons, not_or] at h
    have hcs : ¬(c = sep) := fun hc => h.1 hc.symm
    rw [List.cons_append, splitChar, if_neg hcs, ih h.2]

theorem linesOfParts_cons (p : List Char) (rest : List (List Char)) (h : rest ≠ []) :
    linesOfParts (p :: rest) = stripCR p :: linesOfParts rest := by
  cases rest with
  | nil => exact absurd rfl h
  | cons q qs => rfl

theorem stripCR_eq_self (l : List Char) (h : l.getLast? ≠ some '\r') : stripCR l = l := by
  simp [stripCR, h]

theorem rustLines_joinNl (ls : List (List Char))
    (hsane : ∀ l ∈ ls, '\n' ∉ l ∧ l.getLast? ≠ some '\r')
    (hlast : ls.getLast? ≠ some []) :
    rustLines (joinNl ls) = ls := by
  induction ls with
  | nil => rfl
  | cons l rest ih =>
    cases rest with
    | nil =>
      have h1 := hsane l (by simp)
      have h2 : l ≠ [] := by
        intro he
        exact hlast (by simp [he])
      simp only [joinNl, rustLines, splitChar_not_mem '\n' l h1.1, linesOfParts]
      rw [if_neg (by simpa [List.isEmpty_iff] using h2)]
    | cons l2 rest2 =>
      have h1 := hsane l (by simp)
      have step : joinNl (l :: l2 :: rest2) = l ++ '\n' :: joinNl (l2 :: rest2) := rfl
      rw [step, rustLines, splitChar_append '\n' l _ h1.1,
        linesOfParts_cons _ _ (splitChar_ne_nil '\n' _), stripCR_eq_self l h1.2]
      have ihr :
          rustLines (joinNl (l2 :: rest2)) = l2 :: rest2 := by
        apply ih
        · intro x hx
          exact hsane x (List.mem_cons_of_mem _ hx)
        · simpa using hlast
      rw [← rustLines, ihr]

/-! ### Claim C1 (corrected): the paired-choice generators skip malformed lines -/

/-- C1 counterexample: the input "A Q\nB X" has a malformed line ("Q" is not a
valid Choice), yet `input_generator_part1` and `input_generator_part2` do not
fail: they silently skip the malformed line and still produce the round of the
well-formed line "B X". -/
theorem day2_malformed_line_not_fatal :
    Day2.parseLine1 ['A', ' ', 'Q'] = none
    ∧ Day2.parseLine2 ['A', ' ', 'Q'] = none
    ∧ Day2.input_generator_part1 "A Q\nB X".data =
        [Day2.Game.mk Day2.Play.Paper Day2.Play.Rock]
    ∧ Day2.input_generator_part2 "A Q\nB X".data =
        [Day2.Game.mk Day2.Play.Paper Day2.Play.Rock]
    ∧ Day2.input_generator_part1 "A Q\nB X".data ≠ [] := by
  decide

/-- C1 amended: a malformed line (one the per-line parser rejects: too few
space-separated tokens, or an invalid Choice/strategy symbol) is silently
skipped by both paired-choice generators: removing it from the input leaves
both generators' output unchanged, and no error is ever produced (the
generators are total). -/
theorem day2_generators_skip_malformed
    (ls1 ls2 : List (List Char)) (bad : List Char)
    (hsane : ∀ l ∈ ls1 ++ bad :: ls2, '\n' ∉ l ∧ l.getLast? ≠ some '\r')
    (hlast1 : (ls1 ++ bad :: ls2).getLast? ≠ some [])
    (hlast2 : (ls1 ++ ls2).getLast? ≠ some [])
    (h1 : Day2.parseLine1 bad = none)
    (h2 : Day2.parseLine2 bad = none) :
    Day2.input_generator_part1 (joinNl (ls1 ++ bad :: ls2)) =
      Day2.input_generator_part1 (joinNl (ls1 ++ ls2))
    ∧ Day2.input_generator_part2 (joinNl (ls1 ++ bad :: ls2)) =
      Day2.input_generator_part2 (joinNl (ls1 ++ ls2)) := by
  have hsane2 : ∀ l ∈ ls1 ++ ls2, '\n' ∉ l ∧ l.getLast? ≠ some '\r' := by
    intro l hl
    apply hsane
    rcases List.mem_append.mp hl with h | h
    · exact List.mem_append.mpr (Or.inl h)
    · exact List.mem_append.mpr (Or.inr (List.mem_cons_of_mem _ h))
  rw [Day2.input_generator_part1, Day2.input_generator_part1,
    Day2.input_generator_part2, Day2.input_generator_part2,
    rustLines_joinNl _ hsane hlast1, rustLines_joinNl _ hsane2 hlast2]
  constructor <;> simp [List.filterMap_append, List.filterMap_cons, h1, h2]

theorem day2_generators_skip_malformed_witness :
    Day2.input_generator_part1 (joinNl ["A Y".data, "A Q".data]) =
      Day2.input_generator_part1 (joinNl ["A Y".data])
    ∧ Day2.input_generator_part2 (joinNl ["A Y".data, "A Q".data]) =
      Day2.input_generator_part2 (joinNl ["A Y".data]) :=
  day2_generators_skip_malformed ["A Y".data] [] "A Q".data
    (by decide) (by decide) (by decide) (by decide) (by decide)

/-! ### Claim C3 (corrected): the bisect generator floor-splits odd lines -/

/-- C3 counterexample: the odd-length line "abc" is split into "a" and "bc":
the two halves have different lengths, neither is empty, and no failure
occurs, refuting equal-count splitting as well as the fail-or-empty-half
behaviour for odd lengths. -/
theorem day3_odd_line_uneven_split :
    Day3.input_generator_part1 "abc".data = [(['a'], ['b', 'c'])]
    ∧ (['a'] : List Char).length ≠ (['b', 'c'] : List Char).length
    ∧ (['a'] : List Char) ≠ []
    ∧ (['b', 'c'] : List Char) ≠ [] := by
  decide

/-- C3 amended: every pair produced by the bisect generator reassembles to an
input line of length `n` and is split at `n / 2` (rounded down): the first
half holds `n / 2` characters and the second the remaining `n - n / 2`; the
halves have equal character counts exactly when `n` is even, and the
operation never fails. -/
theorem day3_bisect_floor_split (input : List Char) (p : List Char × List Char)
    (h : p ∈ Day3.input_generator_part1 input) :
    p.1 ++ p.2 ∈ rustLines input
    ∧ p.1.length = (p.1 ++ p.2).length / 2
    ∧ p.2.length = (p.1 ++ p.2).length - (p.1 ++ p.2).length / 2
    ∧ (p.1.length = p.2.length ↔ (p.1 ++ p.2).length % 2 = 0) := by
  obtain ⟨line, hline, rfl⟩ := List.mem_map.mp h
  have hjoin : (Day3.bisect line).1 ++ (Day3.bisect line).2 = line :=
    List.take_append_drop _ _
  rw [hjoin]
  have h1 : (Day3.bisect line).1.length = line.length / 2 := by
    simp [Day3.bisect, Nat.min_eq_left (Nat.div_le_self _ _)]
  have h2 : (Day3.bisect line).2.length = line.length - line.length / 2 := by
    simp [Day3.bisect]
  refine ⟨hline, h1, h2, ?_⟩
  rw [h1, h2]
  omega

theorem day3_bisect_floor_split_witness :
    ['a'] ++ ['b'] ∈ rustLines "ab".data
    ∧ (['a'] : List Char).length = (['a'] ++ ['b'] : List Char).length / 2
    ∧ (['b'] : List Char).length =
        (['a'] ++ ['b'] : List Char).length - (['a'] ++ ['b'] : List Char).length / 2
    ∧ ((['a'] : List Char).length = (['b'] : List Char).length ↔
        (['a'] ++ ['b'] : List Char).length % 2 = 0) :=
  day3_bisect_floor_split "ab".data (['a'], ['b']) (by decide)

/-! ### Claim C7 (confirmed): properties of the outcome table -/

/-- C7: the outcome table satisfies `wins_against x x = Tie` for every choice,
is antisymmetric (`wins_against a b = Win` iff `wins_against b a = Loss` for
distinct `a`, `b`), and Rock beats Scissors, Scissors beats Paper, Paper
beats Rock, always evaluated from the self (first-argument) side. -/
theorem day2_outcome_table :
    (∀ x : Day2.Play, x.wins_against x = Day2.PlayResult.Tie)
    ∧ (∀ a b : Day2.Play, a ≠ b →
        (a.wins_against b = Day2.PlayResult.Win ↔
          b.wins_against a = Day2.PlayResult.Loss))
    ∧ Day2.Play.Rock.wins_against Day2.Play.Scissors = Day2.PlayResult.Win
    ∧ Day2.Play.Scissors.wins_against Day2.Play.Paper = Day2.PlayResult.Win
    ∧ Day2.Play.Paper.wins_against Day2.Play.Rock = Day2.PlayResult.Win := by
  refine ⟨fun x => by cases x <;> rfl,
    fun a b _ => by cases a <;> cases b <;> decide, rfl, rfl, rfl⟩

theorem day2_outcome_table_witness :
    Day2.Play.Rock.wins_against Day2.Play.Paper = Day2.PlayResult.Win ↔
      Day2.Play.Paper.wins_against Day2.Play.Rock = Day2.PlayResult.Loss :=
  day2_outcome_table.2.1 Day2.Play.Rock Day2.Play.Paper (by decide)

/-! ### Claim C8 (confirmed): strategy resolution -/

/-- C8: for every opponent choice, `from_strategy` returns the opponent's own
choice for "Y", a choice that loses to the opponent for "X", a choice that
beats the opponent for "Z", and an error for every other symbol. -/
theorem day2_from_strategy_resolves (opp : Day2.Play) :
    Day2.Play.from_strategy opp ['Y'] = Except.ok opp
    ∧ (∃ c, Day2.Play.from_strategy opp ['X'] = Except.ok c
        ∧ c.wins_against opp = Day2.PlayResult.Loss)
    ∧ (∃ c, Day2.Play.from_strategy opp ['Z'] = Except.ok c
        ∧ c.wins_against opp = Day2.PlayResult.Win)
    ∧ ∀ s : List Char, s ≠ ['X'] → s ≠ ['Y'] → s ≠ ['Z'] →
        Day2.Play.from_strategy opp s =
          Except.error ("Was given an invalid play: ".data ++ s) := by
  refine ⟨?_, ?_, ?_, ?_⟩
  · cases opp <;> rfl
  · cases opp <;> exact ⟨_, rfl, rfl⟩
  · cases opp <;> exact ⟨_, rfl, rfl⟩
  · intro s hx hy hz
    rw [Day2.Play.from_strategy.eq_def, if_neg hx, if_neg hy, if_neg hz]

theorem day2_from_strategy_resolves_witness :
    Day2.Play.from_strategy Day2.Play.Rock ['Q'] =
      Except.error ("Was given an invalid play: ".data ++ ['Q']) :=
  (day2_from_strategy_resolves Day2.Play.Rock).2.2.2 ['Q']
    (by decide) (by decide) (by decide)

/-! ### Claim C9 (confirmed): the scoring rule -/

/-- C9: the score of a round is the shape value of the right-hand (self) play
(Rock = 1, Paper = 2, Scissors = 3) plus the outcome bonus from the self
perspective (Win = 6, Tie = 3, Loss = 0); in particular it is the shape value
alone on a loss, shape value plus 3 on a tie, and shape value plus 6 on a
win. -/
theorem day2_points_breakdown (g : Day2.Game) :
    g.points =
      (match g.snd with
       | Day2.Play.Rock => 1
       | Day2.Play.Paper => 2
       | Day2.Play.Scissors => 3)
      + (match g.snd.wins_against g.fst with
         | Day2.PlayResult.Win => 6
         | Day2.PlayResult.Tie => 3
         | Day2.PlayResult.Loss => 0)
    ∧ (g.snd.wins_against g.fst = Day2.PlayResult.Loss → g.points = g.snd.asU32)
    ∧ (g.snd.wins_against g.fst = Day2.PlayResult.Tie → g.points = g.snd.asU32 + 3)
    ∧ (g.snd.wins_against g.fst = Day2.PlayResult.Win → g.points = g.snd.asU32 + 6) := by
  obtain ⟨a, b⟩ := g
  cases a <;> cases b <;> exact ⟨rfl, by decide, by decide, by decide⟩

theorem day2_points_breakdown_witness :
    (Day2.Game.mk Day2.Play.Rock Day2.Play.Paper).points = Day2.Play.Paper.asU32 + 6 :=
  (day2_points_breakdown (Day2.Game.mk Day2.Play.Rock Day2.Play.Paper)).2.2.2 (by decide)

/-! ### Claim C2 (corrected): `get_largest_box` returns the last maximal box -/

/-- Decomposition of the `max_by` fold: the result is an element of the list,
every element is bounded by it, and every element strictly after it is
strictly smaller (later ties replace the accumulator, so the last maximal
element wins). -/
theorem foldl_maxStep_decomp (rest : List Day1.CalorieBox) (b : Day1.CalorieBox) :
    ∃ pre post,
      b :: rest = pre ++ (rest.foldl Day1.maxStep b) :: post
      ∧ (∀ x ∈ pre, x.total ≤ (rest.foldl Day1.maxStep b).total)
      ∧ ∀ x ∈ post, x.total < (rest.foldl Day1.maxStep b).total := by
  induction rest generalizing b with
  | nil => exact ⟨[], [], rfl, by simp, by simp⟩
  | cons x rest ih =>
    rw [List.foldl_cons]
    by_cases hx : x.total < b.total
    · have hbx : Day1.maxStep b x = b := by simp [Day1.maxStep, hx]
      rw [hbx]
      obtain ⟨pre, post, hdecomp, hpre, hpost⟩ := ih b
      cases pre with
      | nil =>
        simp only [List.nil_append] at hdecomp
        injection hdecomp with h1 h2
        refine ⟨[], x :: post, ?_, by simp, ?_⟩
        · simp only [List.nil_append]
          rw [← h1, ← h2]
        · intro y hy
          rcases List.mem_cons.mp hy with rfl | hy
          · rw [← h1]
            exact hx
          · exact hpost y hy
      | cons p pre2 =>
        simp only [List.cons_append] at hdecomp
        injection hdecomp with h1 h2
        refine ⟨b :: x :: pre2, post, ?_, ?_, hpost⟩
        · simp only [List.cons_append]
          conv_lhs => rw [h2]
        · intro y hy
          rcases List.mem_cons.mp hy with rfl | hy
          · calc y.total = p.total := by rw [h1]
              _ ≤ _ := hpre p (by simp)
          · rcases List.mem_cons.mp hy with rfl | hy
            · calc y.total ≤ b.total := le_of_lt hx
                _ = p.total := by rw [h1]
                _ ≤ _ := hpre p (by simp)
            · exact hpre y (by simp [hy])
    · have hbx : Day1.maxStep b x = x := by simp [Day1.maxStep, hx]
      rw [hbx]
      obtain ⟨pre, post, hdecomp, hpre, hpost⟩ := ih x
      refine ⟨b :: pre, post, ?_, ?_, hpost⟩
      · simp only [List.cons_append]
        rw [← hdecomp]
      · intro y hy
        rcases List.mem_cons.mp hy with rfl | hy
        · have hyx : y.total ≤ x.total := Nat.le_of_not_lt hx
          have hxr : x.total ≤ (rest.foldl Day1.maxStep x).total := by
            cases pre with
            | nil =>
              simp only [List.nil_append] at hdecomp
              injection hdecomp with h1 _
              rw [← h1]
            | cons p pre2 =>
              simp only [List.cons_append] at hdecomp
              injection hdecomp with h1 _
              calc x.total = p.total := by rw [h1]
                _ ≤ _ := hpre p (by simp)
          exact le_trans hyx hxr
        · exact hpre y hy

/-- C2 counterexample: two boxes with equal totals; `get_largest_box` returns
the second one, not the first, refuting the first-encountered tie-breaking
rule (Rust's `max_by` keeps the last of equally maximal elements). -/
theorem day1_largest_tie_returns_last :
    Day1.get_largest_box [⟨0, [5]⟩, ⟨1, [5]⟩] = some ⟨1, [5]⟩
    ∧ (⟨0, [5]⟩ : Day1.CalorieBox).total = (⟨1, [5]⟩ : Day1.CalorieBox).total
    ∧ (⟨1, [5]⟩ : Day1.CalorieBox) ≠ ⟨0, [5]⟩ := by
  decide

/-- C2 amended: for every non-empty sequence of groups, `get_largest_box`
returns a group whose total is maximal among the sequence, and when several
groups share the maximal total it returns the last such group in input order
(everything after the returned group is strictly smaller); for the empty
sequence it fails. -/
theorem day1_get_largest_box_max_last :
    Day1.get_largest_box ([] : List Day1.CalorieBox) = none
    ∧ ∀ l : List Day1.CalorieBox, l ≠ [] →
        ∃ b pre post,
          Day1.get_largest_box l = some b
          ∧ l = pre ++ b :: post
          ∧ (∀ x ∈ l, x.total ≤ b.total)
          ∧ ∀ x ∈ post, x.total < b.total := by
  refine ⟨rfl, ?_⟩
  intro l hl
  cases l with
  | nil => exact absurd rfl hl
  | cons b rest =>
    obtain ⟨pre, post, hdecomp, hpre, hpost⟩ := foldl_maxStep_decomp rest b
    refine ⟨rest.foldl Day1.maxStep b, pre, post, rfl, hdecomp, ?_, hpost⟩
    intro x hx
    rw [hdecomp] at hx
    rcases List.mem_append.mp hx with hx | hx
    · exact hpre x hx
    · rcases List.mem_cons.mp hx with rfl | hx
      · exact le_refl _
      · exact le_of_lt (hpost x hx)

theorem day1_get_largest_box_max_last_witness :
    ∃ b pre post,
      Day1.get_largest_box [Day1.CalorieBox.mk 0 [7]] = some b
      ∧ [Day1.CalorieBox.mk 0 [7]] = pre ++ b :: post
      ∧ (∀ x ∈ [Day1.CalorieBox.mk 0 [7]], x.total ≤ b.total)
      ∧ ∀ x ∈ post, x.total < b.total :=
  day1_get_largest_box_max_last.2 [Day1.CalorieBox.mk 0 [7]] (by decide)

/-! ### Claim C10 (confirmed): the generator's output is never empty -/

theorem igLoop_some_ne_nil (ls : List (List Char)) (boxes : List Day1.CalorieBox)
    (cal : List Nat) (bs : List Day1.CalorieBox)
    (h : Day1.igLoop ls boxes cal = some bs) : bs ≠ [] := by
  induction ls generalizing boxes cal with
  | nil =>
    simp only [Day1.igLoop, Option.some.injEq] at h
    subst h
    simp
  | cons line rest ih =>
    simp only [Day1.igLoop] at h
    split at h
    · exact ih _ _ h
    · split at h
      · exact ih _ _ h
      · exact absurd h (by simp)

/-- C10: whenever the grouped-sums generator succeeds (it fails only when a
non-blank line is not a valid unsigned integer), its output contains at least
one group, because the final accumulated group is pushed unconditionally; so
`get_largest_box` applied to generator output (as `solve_part1` does) never
hits its empty-input failure branch. -/
theorem day1_generator_output_nonempty (input : List Char) (bs : List Day1.CalorieBox)
    (h : Day1.input_generator input = some bs) :
    bs ≠ []
    ∧ (∃ b, Day1.get_largest_box bs = some b)
    ∧ ∃ s, Day1.solve_part1 bs = some s := by
  have hne : bs ≠ [] := igLoop_some_ne_nil _ _ _ _ h
  cases bs with
  | nil => exact absurd rfl hne
  | cons b rest => exact ⟨hne, ⟨_, rfl⟩, ⟨_, rfl⟩⟩

theorem day1_generator_output_nonempty_witness :
    Day1.input_generator [] = some [Day1.CalorieBox.mk 0 []]
    ∧ ([Day1.CalorieBox.mk 0 []] ≠ []
      ∧ (∃ b, Day1.get_largest_box [Day1.CalorieBox.mk 0 []] = some b)
      ∧ ∃ s, Day1.solve_part1 [Day1.CalorieBox.mk 0 []] = some s) :=
  ⟨by decide, day1_generator_output_nonempty [] [Day1.CalorieBox.mk 0 []] (by decide)⟩

/-! ### Claims C5 and C6: the top-k sort -/

theorem foldl_maxStep_ge (rest : List Day1.CalorieBox) (b : Day1.CalorieBox) :
    ∀ z ∈ b :: rest, z.total ≤ (rest.foldl Day1.maxStep b).total := by
  obtain ⟨pre, post, hdecomp, hpre, hpost⟩ := foldl_maxStep_decomp rest b
  intro z hz
  rw [hdecomp] at hz
  rcases List.mem_append.mp hz with hz | hz
  · exact hpre z hz
  · rcases List.mem_cons.mp hz with rfl | hz
    · exact le_refl _
    · exact le_of_lt (hpost z hz)

theorem boxLe_trans (a b c : Day1.CalorieBox) :
    Nat.ble b.total a.total → Nat.ble c.total b.total → Nat.ble c.total a.total := by
  intro h1 h2
  simp only [Nat.ble_eq] at *
  omega

theorem boxLe_total (a b : Day1.CalorieBox) :
    Nat.ble b.total a.total || Nat.ble a.total b.total := by
  simp only [Bool.or_eq_true, Nat.ble_eq]
  omega

theorem mergeSort_boxes_sorted (l : List Day1.CalorieBox) :
    (l.mergeSort fun a b => Nat.ble b.total a.total).Pairwise
      (fun a b => b.total ≤ a.total) := by
  have h := List.sorted_mergeSort boxLe_trans boxLe_total l
  exact h.imp fun hab => Nat.ble_eq.mp hab

/-- Stability of the descending sort, phrased through filters: for any
predicate that only keeps boxes of one fixed total, the sort leaves the
filtered subsequence untouched. -/
theorem filter_mergeSort_boxes (l : List Day1.CalorieBox) (p : Day1.CalorieBox → Bool)
    (hp : ∀ a b, p a → p b → Nat.ble b.total a.total) :
    (l.mergeSort fun a b => Nat.ble b.total a.total).filter p = l.filter p := by
  have hpair : (l.filter p).Pairwise (fun a b => Nat.ble b.total a.total) := by
    apply List.pairwise_of_forall_mem_list
    intro a ha b hb
    exact hp a b (List.mem_filter.mp ha).2 (List.mem_filter.mp hb).2
  have h2 : List.Sublist (l.filter p) (l.mergeSort fun a b => Nat.ble b.total a.total) :=
    List.sublist_mergeSort boxLe_trans boxLe_total hpair (List.filter_sublist l)
  have h3 : List.Sublist (l.filter p)
      ((l.mergeSort fun a b => Nat.ble b.total a.total).filter p) := by
    have h4 := h2.filter p
    rwa [List.filter_eq_self.mpr fun a ha => (List.mem_filter.mp ha).2] at h4
  have h5 : ((l.mergeSort fun a b => Nat.ble b.total a.total).filter p).length =
      (l.filter p).length :=
    ((List.mergeSort_perm l _).filter p).length_eq
  exact (h3.eq_of_length h5.symm).symm

/-- C6: `get_largest_boxes` returns exactly `min k |G|` groups, sorted in
descending order of total, and groups with equal total keep their original
relative input order: for every total value `t`, the boxes of total `t` in
the output form a prefix of the boxes of total `t` in the input, in the same
order. -/
theorem day1_get_largest_boxes_spec (l : List Day1.CalorieBox) (k : Nat) :
    (Day1.get_largest_boxes l k).length = min k l.length
    ∧ (Day1.get_largest_boxes l k).Pairwise (fun a b => b.total ≤ a.total)
    ∧ ∀ t : Nat, ∃ suffix,
        l.filter (fun b => b.total == t) =
          (Day1.get_largest_boxes l k).filter (fun b => b.total == t) ++ suffix := by
  refine ⟨?_, ?_, ?_⟩
  · rw [Day1.get_largest_boxes, List.length_take, List.length_mergeSort]
  · exact (mergeSort_boxes_sorted l).sublist (List.take_sublist _ _)
  · intro t
    have hst := filter_mergeSort_boxes l (fun b => b.total == t) ?_
    · refine ⟨((l.mergeSort fun a b => Nat.ble b.total a.total).drop k).filter
        (fun b => b.total == t), ?_⟩
      rw [Day1.get_largest_boxes, ← List.filter_append, List.take_append_drop]
      exact hst.symm
    · intro a b ha hb
      have ha2 : a.total = t := by simpa using ha
      have hb2 : b.total = t := by simpa using hb
      simp [Nat.ble_eq, ha2, hb2]

/-- C5: summing the totals of the top-1 list equals the total of the largest
box: both are the maximal total, even though on ties `get_largest_box`
returns the last maximal box while the stable sort puts the first maximal box
at the head. -/
theorem day1_topk1_matches_largest (l : List Day1.CalorieBox) (h : l ≠ []) :
    ∃ b, Day1.get_largest_box l = some b
      ∧ Day1.sum_boxes (Day1.get_largest_boxes l 1) = b.total := by
  cases l with
  | nil => exact absurd rfl h
  | cons x rest =>
    refine ⟨rest.foldl Day1.maxStep x, rfl, ?_⟩
    cases hMc : (x :: rest).mergeSort (fun a b => Nat.ble b.total a.total) with
    | nil =>
      have hlen := congrArg List.length hMc
      rw [List.length_mergeSort] at hlen
      simp at hlen
    | cons m ms =>
      have htake : Day1.get_largest_boxes (x :: rest) 1 = [m] := by
        rw [Day1.get_largest_boxes, hMc]
        rfl
      rw [htake]
      have htotlt : m.total < 2 ^ 32 := by
        rw [Day1.CalorieBox.total]
        exact Nat.mod_lt _ (by norm_num)
      have hsum : Day1.sum_boxes [m] = m.total := by
        rw [Day1.sum_boxes]
        simp only [List.map_cons, List.map_nil, List.foldl_cons, List.foldl_nil, Nat.zero_add]
        exact Nat.mod_eq_of_lt htotlt
      rw [hsum]
      have hmmem : m ∈ x :: rest := by
        have hm : m ∈ (x :: rest).mergeSort (fun a b => Nat.ble b.total a.total) := by
          rw [hMc]
          exact List.mem_cons_self _ _
        exact List.mem_mergeSort.mp hm
      have h1 : m.total ≤ (rest.foldl Day1.maxStep x).total :=
        foldl_maxStep_ge rest x m hmmem
      have h2 : (rest.foldl Day1.maxStep x).total ≤ m.total := by
        obtain ⟨pre, post, hdecomp, _, _⟩ := foldl_maxStep_decomp rest x
        have hrm : rest.foldl Day1.maxStep x ∈ x :: rest := by
          rw [hdecomp]
          exact List.mem_append.mpr (Or.inr (List.mem_cons_self _ _))
        have hrM : rest.foldl Day1.maxStep x ∈
            (x :: rest).mergeSort (fun a b => Nat.ble b.total a.total) :=
          List.mem_mergeSort.mpr hrm
        rw [hMc] at hrM
        rcases List.mem_cons.mp hrM with heq | hmem2
        · rw [heq]
        · have hs := mergeSort_boxes_sorted (x :: rest)
          rw [hMc] at hs
          exact List.rel_of_pairwise_cons hs hmem2
      exact Nat.le_antisymm h1 h2

theorem day1_topk1_matches_largest_witness :
    ∃ b, Day1.get_largest_box [Day1.CalorieBox.mk 0 [7]] = some b
      ∧ Day1.sum_boxes (Day1.get_largest_boxes [Day1.CalorieBox.mk 0 [7]] 1) = b.total :=
  day1_topk1_matches_largest [Day1.CalorieBox.mk 0 [7]] (by decide)

/-! ### Claim C4 (confirmed): the grouping discipline of the generator -/

theorem splitGroups_ne_nil (ls : List (List Char)) : Day1.splitGroups ls ≠ [] := by
  cases ls with
  | nil => simp [Day1.splitGroups]
  | cons line rest =>
    simp only [Day1.splitGroups]
    split
    · simp
    · split <;> simp

theorem parseBlocks_length (bs : List (List (List Char))) (gs : List (List Nat))
    (h : Day1.parseBlocks bs = some gs) : gs.length = bs.length := by
  induction bs generalizing gs with
  | nil =>
    simp only [Day1.parseBlocks, Option.some.injEq] at h
    rw [← h]
    rfl
  | cons b bs ih =>
    simp only [Day1.parseBlocks] at h
    cases hpb : Day1.parseBlock b with
    | none => rw [hpb] at h; exact Option.noConfusion h
    | some x =>
      cases hpbs : Day1.parseBlocks bs with
      | none => rw [hpb, hpbs] at h; exact Option.noConfusion h
      | some y =>
        rw [hpb, hpbs] at h
        injection h with h2
        rw [← h2]
        simp [ih y hpbs]

theorem igLoop_spec (ls : List (List Char)) :
    ∀ (boxes : List Day1.CalorieBox) (cal : List Nat),
      Day1.igLoop ls boxes cal =
        (Day1.parseBlocks (Day1.splitGroups ls)).map
          (fun gs => boxes ++ Day1.mkBoxes boxes.length (Day1.consHead cal gs)) := by
  induction ls with
  | nil =>
    intro boxes cal
    simp [Day1.igLoop, Day1.splitGroups, Day1.parseBlocks, Day1.parseBlock,
      Day1.consHead, Day1.mkBoxes]
  | cons line rest ih =>
    intro boxes cal
    simp only [Day1.igLoop, Day1.splitGroups]
    by_cases hemp : line.isEmpty = true
    · rw [if_pos hemp, if_pos hemp]
      rw [ih (boxes ++ [Day1.CalorieBox.mk boxes.length cal]) []]
      cases hpbs : Day1.parseBlocks (Day1.splitGroups rest) with
      | none =>
        simp only [Day1.parseBlocks, Day1.parseBlock, hpbs]
        rfl
      | some bs =>
        simp only [Day1.parseBlocks, Day1.parseBlock, hpbs]
        have hne : bs ≠ [] := by
          intro he
          have hl := parseBlocks_length _ _ hpbs
          rw [he] at hl
          exact splitGroups_ne_nil rest (List.length_eq_zero.mp hl.symm)
        cases bs with
        | nil => exact absurd rfl hne
        | cons g gs =>
          simp [Day1.consHead, Day1.mkBoxes, List.append_assoc]
    · rw [if_neg hemp, if_neg hemp]
      cases hsg : Day1.splitGroups rest with
      | nil => exact absurd hsg (splitGroups_ne_nil rest)
      | cons g0 gs0 =>
        simp only [hsg]
        cases hpl : Day1.parse_u32 line with
        | none =>
          simp only [hpl]
          simp only [Day1.parseBlocks, Day1.parseBlock, hpl]
          rfl
        | some n =>
          simp only [hpl]
          rw [ih boxes (cal ++ [n]), hsg]
          simp only [Day1.parseBlocks, Day1.parseBlock, hpl]
          cases hpg : Day1.parseBlock g0 with
          | none => simp [hpg]
          | some b0 =>
            cases hpgs : Day1.parseBlocks gs0 with
            | none => simp [hpg, hpgs]
            | some bsr =>
              simp only [hpg, hpgs]
              simp [Day1.consHead, List.append_assoc]

theorem parseBlock_eq_none_iff (b : List (List Char)) :
    Day1.parseBlock b = none ↔ ∃ line ∈ b, Day1.parse_u32 line = none := by
  induction b with
  | nil => simp [Day1.parseBlock]
  | cons line rest ih =>
    simp only [Day1.parseBlock]
    cases hpl : Day1.parse_u32 line with
    | none =>
      refine ⟨fun _ => ⟨line, List.mem_cons_self _ _, hpl⟩, fun _ => rfl⟩
    | some n =>
      cases hpr : Day1.parseBlock rest with
      | none =>
        refine ⟨fun _ => ?_, fun _ => rfl⟩
        obtain ⟨l2, hl2, hp2⟩ := ih.mp hpr
        exact ⟨l2, List.mem_cons_of_mem _ hl2, hp2⟩
      | some ns =>
        constructor
        · intro h
          exact absurd h (by simp)
        · rintro ⟨l2, hl2, hp2⟩
          exfalso
          rcases List.mem_cons.mp hl2 with rfl | hl2
          · rw [hpl] at hp2
            exact Option.noConfusion hp2
          · have hnone : Day1.parseBlock rest = none := ih.mpr ⟨l2, hl2, hp2⟩
            rw [hpr] at hnone
            exact Option.noConfusion hnone

theorem parseBlocks_eq_none_iff (bs : List (List (List Char))) :
    Day1.parseBlocks bs = none ↔ ∃ b ∈ bs, Day1.parseBlock b = none := by
  induction bs with
  | nil => simp [Day1.parseBlocks]
  | cons b rest ih =>
    simp only [Day1.parseBlocks]
    cases hpb : Day1.parseBlock b with
    | none =>
      refine ⟨fun _ => ⟨b, List.mem_cons_self _ _, hpb⟩, fun _ => rfl⟩
    | some x =>
      cases hpr : Day1.parseBlocks rest with
      | none =>
        refine ⟨fun _ => ?_, fun _ => rfl⟩
        obtain ⟨b2, hb2, hp2⟩ := ih.mp hpr
        exact ⟨b2, List.mem_cons_of_mem _ hb2, hp2⟩
      | some ys =>
        constructor
        · intro h
          exact absurd h (by simp)
        · rintro ⟨b2, hb2, hp2⟩
          exfalso
          rcases List.mem_cons.mp hb2 with rfl | hb2
          · rw [hpb] at hp2
            exact Option.noConfusion hp2
          · have hnone : Day1.parseBlocks rest = none := ih.mpr ⟨b2, hb2, hp2⟩
            rw [hpr] at hnone
            exact Option.noConfusion hnone

theorem mem_splitGroups_iff (ls : List (List Char)) (line : List Char) :
    (∃ g ∈ Day1.splitGroups ls, line ∈ g) ↔ line ∈ ls ∧ ¬line.isEmpty = true := by
  induction ls with
  | nil => simp [Day1.splitGroups]
  | cons l rest ih =>
    by_cases hemp : l.isEmpty = true
    · simp only [Day1.splitGroups, if_pos hemp]
      constructor
      · rintro ⟨g, hg, hline⟩
        rcases List.mem_cons.mp hg with rfl | hg
        · cases hline
        · have h2 := ih.mp ⟨g, hg, hline⟩
          exact ⟨List.mem_cons_of_mem _ h2.1, h2.2⟩
      · rintro ⟨hmem, hne⟩
        rcases List.mem_cons.mp hmem with rfl | hmem
        · exact absurd hemp hne
        · obtain ⟨g, hg, hl⟩ := ih.mpr ⟨hmem, hne⟩
          exact ⟨g, List.mem_cons_of_mem _ hg, hl⟩
    · cases hsg : Day1.splitGroups rest with
      | nil => exact absurd hsg (splitGroups_ne_nil rest)
      | cons g0 gs0 =>
        simp only [Day1.splitGroups, if_neg hemp, hsg]
        constructor
        · rintro ⟨g, hg, hline⟩
          rcases List.mem_cons.mp hg with rfl | hg
          · rcases List.mem_cons.mp hline with rfl | hline
            · exact ⟨List.mem_cons_self _ _, hemp⟩
            · have h2 := ih.mp ⟨g0, by rw [hsg]; exact List.mem_cons_self _ _, hline⟩
              exact ⟨List.mem_cons_of_mem _ h2.1, h2.2⟩
          · have h2 := ih.mp ⟨g, by rw [hsg]; exact List.mem_cons_of_mem _ hg, hline⟩
            exact ⟨List.mem_cons_of_mem _ h2.1, h2.2⟩
        · rintro ⟨hmem, hne⟩
          rcases List.mem_cons.mp hmem with rfl | hmem
          · exact ⟨line :: g0, List.mem_cons_self _ _, List.mem_cons_self _ _⟩
          · obtain ⟨g, hg, hl⟩ := ih.mpr ⟨hmem, hne⟩
            rw [hsg] at hg
            rcases List.mem_cons.mp hg with rfl | hg
            · exact ⟨l :: g, List.mem_cons_self _ _, List.mem_cons_of_mem _ hl⟩
            · exact ⟨g, List.mem_cons_of_mem _ hg, hl⟩

/-- C4: the grouped-sums generator realises the specified grouping: its
output is exactly the blocks of the line list delimited by empty lines (an
empty line closes the current group, even an empty one, and starts a new
one; the final accumulated group is appended exactly once whether or not the
input ends with a blank line), each block parsed as unsigned integers and
positioned in order; and it fails exactly when some non-blank line is not a
valid unsigned integer. -/
theorem day1_input_generator_spec (input : List Char) :
    Day1.input_generator input =
      (Day1.parseBlocks (Day1.splitGroups (rustLines input))).map (Day1.mkBoxes 0)
    ∧ (Day1.input_generator input = none ↔
        ∃ line ∈ rustLines input, ¬line.isEmpty = true ∧ Day1.parse_u32 line = none) := by
  have hmain : Day1.input_generator input =
      (Day1.parseBlocks (Day1.splitGroups (rustLines input))).map (Day1.mkBoxes 0) := by
    rw [Day1.input_generator, igLoop_spec]
    cases hpb : Day1.parseBlocks (Day1.splitGroups (rustLines input)) with
    | none => rfl
    | some bs =>
      have hne : bs ≠ [] := by
        intro he
        have hl := parseBlocks_length _ _ hpb
        rw [he] at hl
        exact splitGroups_ne_nil (rustLines input) (List.length_eq_zero.mp hl.symm)
      cases bs with
      | nil => exact absurd rfl hne
      | cons g gs => simp [Day1.consHead]
  refine ⟨hmain, ?_⟩
  rw [hmain, Option.map_eq_none', parseBlocks_eq_none_iff]
  constructor
  · rintro ⟨b, hb, hbnone⟩
    obtain ⟨l2, hl2, hp2⟩ := (parseBlock_eq_none_iff b).mp hbnone
    have h2 := (mem_splitGroups_iff (rustLines input) l2).mp ⟨b, hb, hl2⟩
    exact ⟨l2, h2.1, h2.2, hp2⟩
  · rintro ⟨l2, hl2, hne, hp2⟩
    obtain ⟨g, hg, hlg⟩ := (mem_splitGroups_iff (rustLines input) l2).mpr ⟨hl2, hne⟩
    exact ⟨g, hg, (parseBlock_eq_none_iff g).mpr ⟨l2, hlg, hp2⟩⟩
